import Mathlib

/-!
Shallow embedding of the Intent Classification & Entity Extraction Engine of
`src/bot/nlp_processor.py` (class `NLPProcessor`), together with proofs about
its decision chain.

Modelling conventions:
* Python strings are Lean `String`s (lists of Unicode chars).  The character
  classes used by the program (`str.lower`, `str.isalpha`, `str.isupper`,
  the regex classes `\w`, `\s`, `\d`) are modelled over the alphabets the
  program actually works with: ASCII plus the Russian Cyrillic block
  (`А`..`я`, `Ё`/`ё`).  `\d` is modelled as the ASCII digits.
* The pymorphy3 morphological analyzer is an external dependency; following
  the spec it is an injected reducer capability, modelled as an arbitrary
  function `morph : String → String` (per-word failure degrades to the
  identity, so the identity is one legitimate instantiation).
* Python `dict` is modelled as an association list with Python's semantics:
  assigning to an existing key overwrites the value in place (keeping the
  original insertion position); a new key is appended.
* Python `set` literals are modelled as lists in source order; set iteration
  order is unspecified in Python, theorems below avoid depending on it
  except where a unique element can match.
* Exception handling (`try`/`except`) disappears in a total embedding; the
  logging calls are side effects with no bearing on the returned values and
  are not modelled.
-/

/-- Python `str.lower` on a code point, restricted to ASCII and the Russian
Cyrillic block (`А`..`Я` ↦ `а`..`я`, `Ё` ↦ `ё`). -/
def lowNat (n : Nat) : Nat :=
  if 65 ≤ n ∧ n ≤ 90 then n + 32
  else if 0x410 ≤ n ∧ n ≤ 0x42F then n + 32
  else if n = 0x401 then 0x451
  else n

/-- Python `str.upper` on a code point, restricted to ASCII and the Russian
Cyrillic block. -/
def upNat (n : Nat) : Nat :=
  if 97 ≤ n ∧ n ≤ 122 then n - 32
  else if 0x430 ≤ n ∧ n ≤ 0x44F then n - 32
  else if n = 0x451 then 0x401
  else n

def pyLowerChar (c : Char) : Char := Char.ofNat (lowNat c.toNat)

def pyUpperChar (c : Char) : Char := Char.ofNat (upNat c.toNat)

/-- Python `str.lower` over a whole string. -/
def pyLower (s : String) : String := String.mk (s.data.map pyLowerChar)

/-- Python `str.upper` over a whole string. -/
def pyUpper (s : String) : String := String.mk (s.data.map pyUpperChar)

/-- The regex class `\s` (Python whitespace, `str.split` separators). -/
def isSpaceChar (c : Char) : Bool :=
  c = ' ' || c = '\t' || c = '\n' || c = '\x0d' || c = '\x0b' || c = '\x0c'

/-- A Cyrillic letter (the Russian block used by the program). -/
def isCyrChar (c : Char) : Bool :=
  (0x410 ≤ c.toNat && c.toNat ≤ 0x44F) || c.toNat = 0x401 || c.toNat = 0x451

/-- Python `str.isalpha` on one char, over the program's alphabets. -/
def isAlphaChar (c : Char) : Bool :=
  (65 ≤ c.toNat && c.toNat ≤ 90) || (97 ≤ c.toNat && c.toNat ≤ 122) || isCyrChar c

/-- The regex class `\w`: letters, digits, underscore. -/
def isWordChar (c : Char) : Bool := isAlphaChar c || c.isDigit || c = '_'

/-- Python `str.isalpha` on a string: non-empty and all chars alphabetic. -/
def pyIsAlphaStr (w : String) : Bool := !w.data.isEmpty && w.data.all isAlphaChar

/-- Python `str.isupper` on a single character. -/
def pyIsUpperChar (c : Char) : Bool :=
  (65 ≤ c.toNat && c.toNat ≤ 90) || (0x410 ≤ c.toNat && c.toNat ≤ 0x42F) || c.toNat = 0x401

/-- Python `str.capitalize`: first char uppercased, the rest lowercased. -/
def pyCapitalize (s : String) : String :=
  match s.data with
  | [] => ""
  | c :: cs => String.mk (pyUpperChar c :: cs.map pyLowerChar)

/-- `startsWithList pat l`: `pat` is a prefix of `l`. -/
def startsWithList : List Char → List Char → Bool
  | [], _ => true
  | _ :: _, [] => false
  | a :: as, b :: bs => a == b && startsWithList as bs

/-- `charListHas pat l`: `pat` occurs contiguously inside `l`. -/
def charListHas (pat : List Char) : List Char → Bool
  | [] => startsWithList pat []
  | c :: cs => startsWithList pat (c :: cs) || charListHas pat cs

/-- Python `pat in hay` on strings (contiguous substring test). -/
def strHas (hay pat : String) : Bool := charListHas pat.data hay.data

/-- Accumulator for `pySplit`; `cur` holds the current word reversed. -/
def pySplitAux : List Char → List Char → List (List Char)
  | cur, [] => if cur = [] then [] else [cur.reverse]
  | cur, c :: cs =>
    if isSpaceChar c then
      if cur = [] then pySplitAux [] cs else cur.reverse :: pySplitAux [] cs
    else pySplitAux (c :: cur) cs

/-- Python `str.split()` with no argument: split on whitespace runs,
dropping empty words. -/
def pySplit (l : List Char) : List (List Char) := pySplitAux [] l

/-- Python `" ".join` over a token list (used to re-feed normalized output). -/
def joinWords : List (List Char) → List Char
  | [] => []
  | [w] => w
  | w :: x :: ws => w ++ ' ' :: joinWords (x :: ws)

def joinSp (l : List String) : String := String.mk (joinWords (l.map String.data))

-- Static tables of `NLPProcessor.__init__` (lines 24-51) --------------------
-- Python set literals are kept in source order (duplicates included).

def teacher_kws : List String :=
  ["преподаватель", "учитель", "педагог", "преподает", "ведет", "пара", "пары",
   "урок", "уроки", "кто", "такая", "такой", "какие", "предметы", "покажи", "расскажи",
   "информация", "список", "о преподавателях", "о учителях", "покажи", "учат", "преподаватели",
   "найти", "контакты", "препод", "ведёт", "учит", "фамилия", "препода"]

def discipline_kws : List String :=
  ["предмет", "дисциплина", "математика", "информатика", "программирование", "экономика",
   "бухучет", "бухгалтерия", "физкультура", "английский", "история", "физика", "право",
   "литература", "русский", "алгебра", "геометрия", "химия", "биология", "курс",
   "лекция", "семинар", "практика", "лаба", "преподает", "ведет", "изучает", "изучаем"]

def document_kws : List String :=
  ["справка", "документ", "заявление", "получить", "оформить", "бумага", "справки",
   "документы", "бумаги", "заполнить", "подать", "справку"]

def navigation_kws : List String :=
  ["где", "найти", "находится", "расположение", "аудитория", "кабинет", "этаж", "корпус",
   "столовая", "библиотека", "буфет", "расположена", "аудитории", "находятся", "поиск",
   "как пройти", "дорога", "путь", "актовый", "зал", "лаборатория", "медпункт", "деканат"]

def event_kws : List String :=
  ["мероприятие", "событие", "праздник", "концерт", "выступление", "когда", "какие",
   "фестиваль", "встреча", "семинар", "конференция", "анонс", "скоро", "мероприятия", "афиша"]

def sport_kws : List String :=
  ["секция", "спорт", "тренировка", "занятие", "тренер", "игра", "какие", "есть",
   "секции", "занятия", "спортивные", "спортзал", "физкультура", "футбол", "волейбол",
   "баскетбол", "теннис", "тренер", "физрук", "спортивный", "заниматься"]

def dormitory_kws : List String :=
  ["общежитие", "общага", "комната", "проживание", "заселение", "комендант", "жить",
   "поселиться", "квартира", "общежития", "заселиться", "условия", "плата", "снять"]

/-- `self.categories` (a Python `dict`, iterated in insertion order). -/
def categories : List (String × List String) :=
  [("teacher", teacher_kws), ("discipline", discipline_kws), ("document", document_kws),
   ("navigation", navigation_kws), ("event", event_kws), ("sport", sport_kws),
   ("dormitory", dormitory_kws)]

/-- `self.stop_words` (membership only, so list order is irrelevant). -/
def stop_words : List String :=
  ["и", "в", "во", "не", "что", "он", "на", "я", "с", "со", "как", "а", "то", "все",
   "она", "так", "его", "но", "да", "ты", "к", "у", "же", "вы", "за", "бы", "по",
   "только", "ее", "мне", "было", "вот", "от", "меня", "еще", "нет", "о", "из",
   "ему", "такая", "это", "эта", "где", "какая"]

-- Roster Index: `set_teacher_surnames` (lines 53-84) ------------------------

/-- Python `dict` assignment `d[k] = v`: overwrite in place if the key
exists (keeping its original position), else append. -/
def dictInsert (d : List (String × String)) (k v : String) : List (String × String) :=
  if d.any (fun p => p.1 == k) then d.map (fun p => if p.1 == k then (k, v) else p)
  else d ++ [(k, v)]

/-- Python `d.get(k)` / `d[k]` on the modelled dict. -/
def dictLookup (d : List (String × String)) (k : String) : Option String :=
  (d.find? (fun p => p.1 == k)).map (fun p => p.2)

/-- `str(teacher[1]).lower()` — the index key of a roster record. -/
def teacherKey (t : List String) : String := pyLower (t.getD 1 "")

/-- `f"{teacher[1]} {teacher[2]} {teacher[3]}"` — the canonical full name. -/
def teacherFullName (t : List String) : String :=
  t.getD 1 "" ++ " " ++ t.getD 2 "" ++ " " ++ t.getD 3 ""

/-- One iteration of the build loop of `set_teacher_surnames` (lines 62-79):
rows with fewer than 4 fields are skipped (`if len(teacher) < 4: continue`),
the rest are indexed under the lowercased surname. -/
def rosterStep (d : List (String × String)) (t : List String) : List (String × String) :=
  if 4 ≤ t.length then dictInsert d (teacherKey t) (teacherFullName t) else d

/-- `set_teacher_surnames` (lines 53-84): records are DB rows
`(id, surname, given name, patronymic, …)`.  Records are modelled as
lists of strings (the `isinstance` guard rejects non-sequences, which the
modelled type already excludes); logging is a side effect, not modelled. -/
def set_teacher_surnames (l : List (List String)) : List (String × String) :=
  l.foldl rosterStep []

-- Normalizer: `extract_keywords` (lines 94-110) -----------------------------

/-- The `re.sub` of line 98: non-word, non-space chars become spaces. -/
def cleanChar (c : Char) : Char := if isWordChar c || isSpaceChar c then c else ' '

/-- `extract_keywords` (lines 94-110): lowercase, strip punctuation, split,
lemmatize each word via the injected reducer `morph`, drop stop words. -/
def extract_keywords (morph : String → String) (text : String) : List String :=
  let cleaned := (pyLower text).data.map cleanChar
  let words := (pySplit cleaned).map String.mk
  let normalized := words.map morph
  normalized.filter (fun w => !(stop_words.contains w))

-- Entity extractors: `find_discipline_in_text` (lines 112-156) --------------

/-- The teaching-context shortcut (lines 116-121): if the text contains a
teaching-action marker, return the first `discipline`-set entry contained
in a normalized token, capitalized. -/
def teachShortcut (morph : String → String) (tl : String) : Option String :=
  if strHas tl "ведет" || strHas tl "преподает" || strHas tl "ведёт" then
    (extract_keywords morph tl).findSome? (fun w =>
      discipline_kws.findSome? (fun d =>
        if strHas w d then some (pyCapitalize d) else none))
  else none

/-- One attempted match of `мдк\s*\d{2}\.\d{2}` (IGNORECASE) at the head of
the char list; returns the matched chars. -/
def mdkAt (l : List Char) : Option (List Char) :=
  match l with
  | a :: b :: c :: rest =>
    if pyLowerChar a = 'м' ∧ pyLowerChar b = 'д' ∧ pyLowerChar c = 'к' then
      let sp := rest.takeWhile isSpaceChar
      match rest.dropWhile isSpaceChar with
      | d1 :: d2 :: dot :: d3 :: d4 :: _ =>
        if d1.isDigit ∧ d2.isDigit ∧ dot = '.' ∧ d3.isDigit ∧ d4.isDigit then
          some (a :: b :: c :: (sp ++ [d1, d2, dot, d3, d4]))
        else none
      | _ => none
    else none
  | _ => none

/-- `re.search` of the МДК pattern: leftmost match. -/
def mdkSearch : List Char → Option (List Char)
  | [] => none
  | c :: cs =>
    match mdkAt (c :: cs) with
    | some m => some m
    | none => mdkSearch cs

/-- Line 128: the matched group uppercased, with space characters removed. -/
def despaceUpper (s : String) : String :=
  String.mk ((s.data.map pyUpperChar).filter (fun c => c ≠ ' '))

/-- The discipline-code extractor (lines 123-130). -/
def mdkExtract (text : String) : Option String :=
  (mdkSearch text.data).map (fun m => despaceUpper (String.mk m))

/-- `common_disciplines` (lines 133-137). -/
def common_disciplines : List String :=
  ["математика", "информатика", "русский язык", "литература",
   "история", "физика", "химия", "биология", "экономика", "право",
   "бухгалтерия", "программирование", "английский язык", "философия",
   "психология", "статистика", "культура", "менеджмент", "маркетинг",
   "социология", "политология", "экология"]

/-- `find_discipline_in_text` (lines 112-156).  The МДК pattern is searched
in the raw argument (line 125); the other checks lowercase it. -/
def find_discipline_in_text (morph : String → String) (text : String) : Option String :=
  let tl := pyLower text
  match teachShortcut morph tl with
  | some d => some d
  | none =>
    match mdkExtract text with
    | some code => some code
    | none =>
      match common_disciplines.find? (fun d => strHas tl d) with
      | some d => some (pyCapitalize d)
      | none =>
        common_disciplines.findSome? (fun d =>
          if decide (5 < d.length) then
            (extract_keywords morph tl).findSome? (fun w =>
              if decide (5 < w.length) && (strHas w d || strHas d w) then
                some (pyCapitalize d)
              else none)
          else none)

-- Classifier: `categorize_query` (lines 158-280) ----------------------------

/-- Literal parts of the `teacher_patterns` regexes (lines 170-177); each is
followed by a captured `[\w]+`. -/
def teacherPatternLits : List String :=
  ["кто такая ", "кто такой ", "преподаватель ", "о преподавателе ", "где найти ", "контакты "]

/-- Try to match `lit([\w]+)` at the head of `l`; capture the word-char run. -/
def captureAt (lit : List Char) (l : List Char) : Option (List Char) :=
  if startsWithList lit l then
    let w := (l.drop lit.length).takeWhile isWordChar
    if w = [] then none else some w
  else none

/-- `re.search(lit + r"([\w]+)", ·)`: leftmost full match, greedy capture. -/
def searchCapture (lit : List Char) : List Char → Option (List Char)
  | [] => captureAt lit []
  | c :: cs =>
    match captureAt lit (c :: cs) with
    | some w => some w
    | none => searchCapture lit cs

/-- Lines 180-186: every matching teacher pattern appends its captured
group to the keyword list. -/
def patternCaptures (tl : String) : List String :=
  teacherPatternLits.filterMap (fun lit => (searchCapture lit.data tl.data).map String.mk)

/-- The keyword list used by the decision chain: normalized tokens plus the
teacher-pattern captures (lines 162, 180-186). -/
def fullKeywords (morph : String → String) (text : String) : List String :=
  extract_keywords morph (pyLower text) ++ patternCaptures (pyLower text)

/-- Roster surname match (lines 189-193): first token containing an indexed
surname wins; among surnames, dict (insertion) order decides. -/
def rosterFind (surnames : List (String × String)) (kws : List String) : Option String :=
  kws.findSome? (fun w =>
    surnames.findSome? (fun p => if strHas (pyLower w) p.1 then some p.2 else none))

/-- Locative markers of the navigation check (lines 199-200). -/
def locMarkers (tl : String) : Bool :=
  strHas tl "где" || strHas tl "как найти" || strHas tl "как пройти" ||
  strHas tl "местоположение" || strHas tl "расположение"

/-- Explicit navigation phrasing (lines 199-226). -/
def step_nav (tl : String) (keywords : List String) : Option (String × List String) :=
  if locMarkers tl then
    some (
      if strHas tl "библиотек" then ("navigation", ["библиотека"])
      else if strHas tl "столов" || strHas tl "буфет" || strHas tl "поесть" || strHas tl "еда" then
        ("navigation", ["столовая"])
      else if strHas tl "vr" || strHas tl "лаборатор" then ("navigation", ["лаборатория"])
      else
        match ["деканат", "учебная часть", "студсовет", "бухгалтерия",
               "актовый зал", "спортзал", "медпункт"].find? (fun loc => strHas tl loc) with
        | some loc => ("navigation", [loc])
        | none => ("navigation", keywords))
  else none

/-- The interrogative words excluded by the teacher heuristics (lines 233-234, 242-243). -/
def commonQuestionWords : List String :=
  ["где", "как", "что", "когда", "почему", "кто", "находиться", "расположен"]

/-- Token filter of the generic teacher-mention heuristic (lines 231-235). -/
def mentionOk (w : String) : Bool :=
  decide (3 < w.length) && pyIsAlphaStr w &&
  !(commonQuestionWords.any (fun cw => strHas (pyLower w) cw))

/-- Generic teacher-mention heuristic (lines 229-237); falls through when no
token qualifies. -/
def step_mention (tl : String) (keywords : List String) : Option (String × List String) :=
  if ["преподаватель", "учитель", "педагог"].any (fun r => strHas tl r) then
    (keywords.find? mentionOk).map (fun w => ("teacher", [w]))
  else none

/-- Token filter of the capitalized-surname fallback (lines 240-243). -/
def capOk (w : String) : Bool :=
  decide (3 < w.length) && pyIsAlphaStr w && pyIsUpperChar (w.data.headD ' ') &&
  !(commonQuestionWords.any (fun cw => strHas (pyLower w) cw))

/-- Capitalized-surname fallback (lines 240-245). -/
def step_cap (keywords : List String) : Option (String × List String) :=
  (keywords.find? capOk).map (fun w => ("teacher", [w]))

/-- Exact keyword-set intersection (lines 263-266). -/
def step_exact (keywords : List String) : Option (String × List String) :=
  (categories.find? (fun p => keywords.any (fun k => p.2.contains k))).map
    (fun p => (p.1, keywords))

/-- One fuzzy comparison of line 272. -/
def fuzzyPair (k cw : String) : Bool :=
  (decide (3 < k.length) && strHas cw k) || (decide (3 < cw.length) && strHas k cw)

/-- Fuzzy keyword-set intersection (lines 268-274). -/
def step_fuzzy (keywords : List String) : Option (String × List String) :=
  categories.findSome? (fun p =>
    if keywords.any (fun k => p.2.any (fun cw => fuzzyPair k cw)) then some (p.1, keywords)
    else none)

/-- `categorize_query` (lines 158-280): the fixed-priority decision chain. -/
def categorize_query (morph : String → String) (surnames : List (String × String))
    (text : String) : String × List String :=
  let tl := pyLower text
  let keywords := fullKeywords morph text
  match rosterFind surnames keywords with
  | some full => ("teacher", [full])
  | none =>
    match step_nav tl keywords with
    | some r => r
    | none =>
      match step_mention tl keywords with
      | some r => r
      | none =>
        match step_cap keywords with
        | some r => r
        | none =>
          match find_discipline_in_text morph tl with
          | some d => ("discipline", [d])
          | none =>
            if strHas tl "преподаватели" || strHas tl "о преподавателях" ||
               strHas tl "список преподавателей" then ("teacher", keywords)
            else if strHas tl "столовая" || strHas tl "буфет" || strHas tl "поесть" then
              ("navigation", "столовая" :: keywords)
            else
              match step_exact keywords with
              | some r => r
              | none =>
                match step_fuzzy keywords with
                | some r => r
                | none => ("unknown", keywords)

-- `process_query` (lines 282-314) -------------------------------------------

def clarifyMsg : String := "Пожалуйста, сформулируйте вопрос подробнее."

def apologyMsg : String :=
  "Извините, я не смог понять ваш вопрос. Попробуйте переформулировать или выберите пункт из меню."

/-- `process_query` (lines 282-314).  The category formatters
(`_process_teacher_query`, …) query the external data store; they are
modelled by the injected `handler` applied to the category tag and the
keyword list.  Commands (leading `/`) are rejected with `none`. -/
def process_query (morph : String → String) (surnames : List (String × String))
    (handler : String → List String → String) (text : String) : Option String :=
  if startsWithList ['/'] text.data then none
  else
    let r := categorize_query morph surnames text
    if r.2 = [] then some clarifyMsg
    else if r.1 = "teacher" then some (handler r.1 r.2)
    else if r.1 = "discipline" then some (handler r.1 r.2)
    else if r.1 = "sport" then some (handler r.1 r.2)
    else if r.1 = "document" then some (handler r.1 r.2)
    else if r.1 = "navigation" then some (handler r.1 r.2)
    else if r.1 = "event" then some (handler r.1 r.2)
    else if r.1 = "dormitory" then some (handler r.1 r.2)
    else some apologyMsg

/-- The closed category set of the data model. -/
def categoryNames : List String :=
  ["teacher", "discipline", "document", "navigation", "event", "sport", "dormitory", "unknown"]

/-- The last record of `l` that survives the length guard and carries the
index key `k` — the record whose full name the Python dict ends up
holding under `k`. -/
def lastValid (l : List (List String)) (k : String) : Option (List String) :=
  (l.filter (fun t => decide (4 ≤ t.length) && (teacherKey t == k))).getLast?

/-- The per-category condition of the fuzzy keyword step (lines 270-273). -/
def fuzzyCondition (kws : List String) (p : String × List String) : Bool :=
  kws.any (fun k => p.2.any (fun cw => fuzzyPair k cw))

-- Structural equations for the splitter --------------------------------------

theorem pySplitAux_nil (cur : List Char) :
    pySplitAux cur [] = if cur = [] then [] else [cur.reverse] := rfl

theorem pySplitAux_cons (cur : List Char) (c : Char) (cs : List Char) :
    pySplitAux cur (c :: cs) =
      if isSpaceChar c then
        (if cur = [] then pySplitAux [] cs else cur.reverse :: pySplitAux [] cs)
      else pySplitAux (c :: cur) cs := rfl

-- Basic character facts ------------------------------------------------------

theorem toNat_ofNat_valid (n : Nat) (h : n.isValidChar) : (Char.ofNat n).toNat = n := by
  unfold Char.ofNat
  rw [dif_pos h]
  rfl

theorem lowNat_valid (n : Nat) (h : n.isValidChar) : (lowNat n).isValidChar := by
  unfold lowNat
  unfold Nat.isValidChar at *
  split_ifs <;> omega

theorem toNat_pyLowerChar (c : Char) : (pyLowerChar c).toNat = lowNat c.toNat := by
  unfold pyLowerChar
  exact toNat_ofNat_valid _ (lowNat_valid _ c.valid)

theorem lowNat_idem (n : Nat) : lowNat (lowNat n) = lowNat n := by
  unfold lowNat
  split_ifs <;> omega

theorem charEq_of_toNat {a b : Char} (h : a.toNat = b.toNat) : a = b := by
  cases a with
  | mk va ha =>
    cases b with
    | mk vb hb =>
      simp only [Char.toNat] at h
      congr 1
      exact UInt32.ext h

theorem pyLowerChar_idem (c : Char) : pyLowerChar (pyLowerChar c) = pyLowerChar c := by
  apply charEq_of_toNat
  rw [toNat_pyLowerChar, toNat_pyLowerChar, lowNat_idem]

theorem data_mk (l : List Char) : (String.mk l).data = l := rfl

theorem mk_data (s : String) : String.mk s.data = s := rfl

theorem pyLower_idem (s : String) : pyLower (pyLower s) = pyLower s := by
  unfold pyLower
  rw [data_mk, List.map_map]
  congr 1
  exact List.map_congr_left (fun c _ => pyLowerChar_idem c)

-- Generic helper lemmas ------------------------------------------------------

theorem findSome?_isSome_of_exists {α β : Type} {f : α → Option β} {l : List α}
    (h : ∃ a ∈ l, (f a).isSome) : (l.findSome? f).isSome := by
  rcases h with ⟨a, ha, hfa⟩
  cases hf : l.findSome? f with
  | some b => rfl
  | none =>
    rw [List.findSome?_eq_none_iff] at hf
    rw [hf a ha] at hfa
    simp at hfa

theorem mapSelf_of_mem {α : Type} {f : α → α} {l : List α}
    (h : ∀ a ∈ l, f a = a) : l.map f = l := by
  induction l with
  | nil => rfl
  | cons x xs ih =>
    simp only [List.map_cons, h x (List.mem_cons_self x xs),
      ih (fun a ha => h a (List.mem_cons_of_mem x ha))]

-- Shape lemmas for the steps of the decision chain ---------------------------

theorem step_nav_fst {tl : String} {kws : List String} {r : String × List String}
    (h : step_nav tl kws = some r) : r.1 = "navigation" := by
  unfold step_nav at h
  split at h
  · rw [Option.some.injEq] at h
    subst h
    split
    · rfl
    · split
      · rfl
      · split
        · rfl
        · split <;> rfl
  · exact absurd h (by simp)

theorem step_mention_shape {tl : String} {kws : List String} {r : String × List String}
    (h : step_mention tl kws = some r) : ∃ w, r = ("teacher", [w]) := by
  unfold step_mention at h
  split at h
  · rcases Option.map_eq_some'.mp h with ⟨w, _, hw⟩
    exact ⟨w, hw.symm⟩
  · exact absurd h (by simp)

theorem step_cap_shape {kws : List String} {r : String × List String}
    (h : step_cap kws = some r) : ∃ w, r = ("teacher", [w]) := by
  unfold step_cap at h
  rcases Option.map_eq_some'.mp h with ⟨w, _, hw⟩
  exact ⟨w, hw.symm⟩

theorem step_exact_shape {kws : List String} {r : String × List String}
    (h : step_exact kws = some r) : ∃ p ∈ categories, r = (p.1, kws) := by
  unfold step_exact at h
  rcases Option.map_eq_some'.mp h with ⟨p, hfind, hp⟩
  exact ⟨p, List.mem_of_find?_eq_some hfind, hp.symm⟩

theorem step_fuzzy_shape {kws : List String} {r : String × List String}
    (h : step_fuzzy kws = some r) :
    ∃ p ∈ categories, r = (p.1, kws) ∧
      (kws.any (fun k => p.2.any (fun cw => fuzzyPair k cw))) = true := by
  unfold step_fuzzy at h
  rcases List.exists_of_findSome?_eq_some h with ⟨p, hp, hfp⟩
  refine ⟨p, hp, ?_⟩
  split at hfp
  · exact ⟨(Option.some.injEq _ _).mp hfp |>.symm, by assumption⟩
  · exact absurd hfp (by simp)

theorem cat_fst_mem : ∀ p ∈ categories, p.1 ∈ categoryNames := by
  intro p hp
  fin_cases hp <;> simp [categoryNames]

/-- **C3** — For every input text, `categorize_query` returns a category drawn
from the closed 8-element set {teacher, discipline, document, navigation,
event, sport, dormitory, unknown}; the embedding is a total function, so no
exception can propagate (the source wraps the whole chain in a
`try`/`except` that degrades to `(unknown, [])`). -/
theorem C3_closed_category_set (morph : String → String)
    (surnames : List (String × String)) (text : String) :
    (categorize_query morph surnames text).1 ∈ categoryNames := by
  simp only [categorize_query]
  split
  · simp [categoryNames]
  · split
    · next r hnav => rw [step_nav_fst hnav]; simp [categoryNames]
    · split
      · next r hm =>
        rcases step_mention_shape hm with ⟨w, rfl⟩
        simp [categoryNames]
      · split
        · next r hc =>
          rcases step_cap_shape hc with ⟨w, rfl⟩
          simp [categoryNames]
        · split
          · simp [categoryNames]
          · split
            · simp [categoryNames]
            · split
              · simp [categoryNames]
              · split
                · next r he =>
                  rcases step_exact_shape he with ⟨p, hp, rfl⟩
                  exact cat_fst_mem p hp
                · split
                  · next r hf =>
                    rcases step_fuzzy_shape hf with ⟨p, hp, rfl, _⟩
                    exact cat_fst_mem p hp
                  · simp [categoryNames]

/-- **C2** — Roster surname match dominates explicit navigation phrasing:
whenever the lowercased text contains the locative marker and some keyword
token contains an indexed roster surname as a substring, `categorize_query`
returns `(teacher, [canonical full name])` with the name produced by the
Roster Index lookup of the first matching token — never a navigation
result. -/
theorem C2_roster_dominates_navigation (morph : String → String)
    (surnames : List (String × String)) (text : String)
    (hloc : strHas (pyLower text) "где" = true)
    (hmatch : ∃ w ∈ fullKeywords morph text, ∃ p ∈ surnames, strHas (pyLower w) p.1 = true) :
    ∃ full, rosterFind surnames (fullKeywords morph text) = some full ∧
      categorize_query morph surnames text = ("teacher", [full]) := by
  have hs : (rosterFind surnames (fullKeywords morph text)).isSome := by
    apply findSome?_isSome_of_exists
    rcases hmatch with ⟨w, hw, p, hp, hcond⟩
    refine ⟨w, hw, findSome?_isSome_of_exists ⟨p, hp, ?_⟩⟩
    rw [hcond]
    rfl
  rcases Option.isSome_iff_exists.mp hs with ⟨full, hfull⟩
  refine ⟨full, hfull, ?_⟩
  simp only [categorize_query, hfull]

/-- Witness for C2: the query text contains the locative marker and the
token matches the roster surname, and the classifier answers Teacher. -/
theorem C2_witness :
    ∃ full, rosterFind [("иванов", "Иванов Иван Иванович")] (fullKeywords id "где иванов") =
        some full ∧
      categorize_query id [("иванов", "Иванов Иван Иванович")] "где иванов" =
        ("teacher", [full]) :=
  C2_roster_dominates_navigation id [("иванов", "Иванов Иван Иванович")] "где иванов"
    (by decide)
    ⟨"иванов", by decide, ("иванов", "Иванов Иван Иванович"), by decide, by decide⟩

/-- **C1, counterexample** — the claim says the teaching-context discipline
shortcut is evaluated before the roster surname match.  On the query
text the marker word is present and the shortcut condition holds (it
would yield a Discipline answer), a token also matches the roster surname,
and `categorize_query` returns the Teacher result: the roster match of
step 2 runs first. -/
theorem C1_counterexample :
    strHas (pyLower "ведет математика иванов") "ведет" = true ∧
    teachShortcut id (pyLower "ведет математика иванов") = some "Ведет" ∧
    categorize_query id (set_teacher_surnames [["1", "Иванов", "Иван", "Иванович"]])
        "ведет математика иванов" = ("teacher", ["Иванов Иван Иванович"]) :=
  ⟨by decide, by decide, by decide⟩

/-- **C1, amended** — the teaching-context discipline shortcut lives inside
the discipline-in-text step, which runs only after the roster surname
match, the navigation check and the two teacher heuristics; when those all
produce nothing and the shortcut fires, `categorize_query` returns
`(discipline, [capitalized entry])`. -/
theorem C1_amended_shortcut_after_roster (morph : String → String)
    (surnames : List (String × String)) (text : String) (d : String)
    (h1 : rosterFind surnames (fullKeywords morph text) = none)
    (h2 : step_nav (pyLower text) (fullKeywords morph text) = none)
    (h3 : step_mention (pyLower text) (fullKeywords morph text) = none)
    (h4 : step_cap (fullKeywords morph text) = none)
    (h5 : teachShortcut morph (pyLower text) = some d) :
    categorize_query morph surnames text = ("discipline", [d]) := by
  have hd : find_discipline_in_text morph (pyLower text) = some d := by
    simp only [find_discipline_in_text, pyLower_idem, h5]
  simp only [categorize_query, h1, h2, h3, h4, hd]

/-- Witness for the amended C1: a teaching-marker query with no roster
interference is classified by the shortcut. -/
theorem C1_amended_witness :
    categorize_query id [] "кто ведет математику" = ("discipline", ["Ведет"]) :=
  C1_amended_shortcut_after_roster id [] "кто ведет математику" "Ведет"
    (by decide) (by decide) (by decide) (by decide) (by decide)

/-- **C6, counterexample** — the text contains the course-code phrase and
reaches the discipline-in-text step, yet the extracted entity is the
capitalized discipline keyword found by the teaching-context shortcut,
not the course code: the shortcut runs before the code extractor. -/
theorem C6_counterexample :
    strHas (pyLower "ведет мдк 01.01") "мдк 01.01" = true ∧
    categorize_query id [] "ведет мдк 01.01" = ("discipline", ["Ведет"]) :=
  ⟨by decide, by decide⟩

/-- **C6, amended** — the course-code round trip holds for every query that
reaches the discipline-in-text step with the teaching-context shortcut not
firing and whose first pattern match is the мдк 01.01 occurrence: the
extracted entity is exactly МДК01.01. -/
theorem C6_amended_mdk_round_trip (morph : String → String)
    (surnames : List (String × String)) (text : String)
    (h1 : rosterFind surnames (fullKeywords morph text) = none)
    (h2 : step_nav (pyLower text) (fullKeywords morph text) = none)
    (h3 : step_mention (pyLower text) (fullKeywords morph text) = none)
    (h4 : step_cap (fullKeywords morph text) = none)
    (h5 : teachShortcut morph (pyLower text) = none)
    (h6 : mdkExtract (pyLower text) = some "МДК01.01") :
    categorize_query morph surnames text = ("discipline", ["МДК01.01"]) := by
  have hd : find_discipline_in_text morph (pyLower text) = some "МДК01.01" := by
    simp only [find_discipline_in_text, pyLower_idem, h5, h6]
  simp only [categorize_query, h1, h2, h3, h4, hd]

/-- Witness for the amended C6: a mixed-case course-code query yields the
normalized code МДК01.01. -/
theorem C6_amended_witness :
    categorize_query id [] "МДК 01.01" = ("discipline", ["МДК01.01"]) :=
  C6_amended_mdk_round_trip id [] "МДК 01.01"
    (by decide) (by decide) (by decide) (by decide) (by decide) (by decide)

/-- **C5, counterexample** — the claim says the code extractor matches any
two letters followed by two digits, a dot and two digits; the code only
matches the fixed letters мдк: on a two-letter prefix nothing matches. -/
theorem C5_counterexample :
    mdkExtract "аб 12.34" = none ∧ find_discipline_in_text id "аб 12.34" = none :=
  ⟨by decide, by decide⟩

theorem mdkAt_shape {l m : List Char} (h : mdkAt l = some m) :
    ∃ (a b c : Char) (sp : List Char) (d1 d2 d3 d4 : Char),
      pyLowerChar a = 'м' ∧ pyLowerChar b = 'д' ∧ pyLowerChar c = 'к' ∧
      (∀ x ∈ sp, isSpaceChar x = true) ∧
      d1.isDigit = true ∧ d2.isDigit = true ∧ d3.isDigit = true ∧ d4.isDigit = true ∧
      m = a :: b :: c :: (sp ++ [d1, d2, '.', d3, d4]) := by
  unfold mdkAt at h
  split at h
  · next a b c rest =>
    split at h
    · next hl =>
      split at h
      · next d1 d2 dot d3 d4 _ _ =>
        split at h
        · next hdig =>
          rw [Option.some.injEq] at h
          refine ⟨a, b, c, rest.takeWhile isSpaceChar, d1, d2, d3, d4,
            hl.1, hl.2.1, hl.2.2, fun x hx => List.mem_takeWhile_imp hx,
            hdig.1, hdig.2.1, hdig.2.2.2.1, hdig.2.2.2.2, ?_⟩
          rw [← h, hdig.2.2.1]
        · exact absurd h (by simp)
      · exact absurd h (by simp)
    · exact absurd h (by simp)
  · exact absurd h (by simp)

theorem mdkSearch_shape {l m : List Char} (h : mdkSearch l = some m) :
    ∃ (a b c : Char) (sp : List Char) (d1 d2 d3 d4 : Char),
      pyLowerChar a = 'м' ∧ pyLowerChar b = 'д' ∧ pyLowerChar c = 'к' ∧
      (∀ x ∈ sp, isSpaceChar x = true) ∧
      d1.isDigit = true ∧ d2.isDigit = true ∧ d3.isDigit = true ∧ d4.isDigit = true ∧
      m = a :: b :: c :: (sp ++ [d1, d2, '.', d3, d4]) := by
  induction l with
  | nil => exact absurd h (by simp [mdkSearch])
  | cons c cs ih =>
    rw [mdkSearch] at h
    split at h
    · next hin => exact mdkAt_shape (hin.trans h)
    · exact ih h

theorem mdkSearch_none_at {l : List Char} (h : mdkSearch l = none) :
    ∀ i, mdkAt (l.drop i) = none := by
  induction l with
  | nil => intro i; simp [List.drop_nil, mdkAt]
  | cons c cs ih =>
    rw [mdkSearch] at h
    intro i
    cases hm : mdkAt (c :: cs) with
    | some m => rw [hm] at h; exact absurd h (by simp)
    | none =>
      rw [hm] at h
      match i with
      | 0 => exact hm
      | i + 1 => exact ih h i

/-- **C5, amended** — the discipline-code extractor matches exactly the
fixed literal мдк (case-insensitively), optional whitespace, two digits, a
dot and two digits: every match has that shape and is returned uppercased
with spaces removed, and when no position of the text matches, the
extractor returns nothing. -/
theorem C5_amended_mdk_pattern :
    (∀ (s : String) (m : List Char), mdkSearch s.data = some m →
      (∃ (a b c : Char) (sp : List Char) (d1 d2 d3 d4 : Char),
        pyLowerChar a = 'м' ∧ pyLowerChar b = 'д' ∧ pyLowerChar c = 'к' ∧
        (∀ x ∈ sp, isSpaceChar x = true) ∧
        d1.isDigit = true ∧ d2.isDigit = true ∧ d3.isDigit = true ∧ d4.isDigit = true ∧
        m = a :: b :: c :: (sp ++ [d1, d2, '.', d3, d4])) ∧
      mdkExtract s = some (despaceUpper (String.mk m))) ∧
    (∀ (s : String), mdkSearch s.data = none →
      mdkExtract s = none ∧ ∀ i, mdkAt (s.data.drop i) = none) := by
  constructor
  · intro s m h
    refine ⟨mdkSearch_shape h, ?_⟩
    unfold mdkExtract
    rw [h]
    rfl
  · intro s h
    refine ⟨?_, mdkSearch_none_at h⟩
    unfold mdkExtract
    rw [h]
    rfl

/-- Witness for the amended C5: the positive half applied to a concrete
matching text, the negative half to a non-matching one. -/
theorem C5_amended_witness :
    ((∃ (a b c : Char) (sp : List Char) (d1 d2 d3 d4 : Char),
        pyLowerChar a = 'м' ∧ pyLowerChar b = 'д' ∧ pyLowerChar c = 'к' ∧
        (∀ x ∈ sp, isSpaceChar x = true) ∧
        d1.isDigit = true ∧ d2.isDigit = true ∧ d3.isDigit = true ∧ d4.isDigit = true ∧
        "мдк 12.34".data = a :: b :: c :: (sp ++ [d1, d2, '.', d3, d4])) ∧
      mdkExtract "мдк 12.34" = some (despaceUpper (String.mk "мдк 12.34".data))) ∧
    (mdkExtract "кабинет 12.34" = none ∧ ∀ i, mdkAt ("кабинет 12.34".data.drop i) = none) :=
  ⟨C5_amended_mdk_pattern.1 "мдк 12.34" "мдк 12.34".data (by decide),
   C5_amended_mdk_pattern.2 "кабинет 12.34" (by decide)⟩

/-- **C9** — for a non-command text, an empty keyword list from the
classifier short-circuits `process_query` to the fixed clarification
prompt, before any category-specific formatter is consulted. -/
theorem C9_empty_keywords_prompt (morph : String → String)
    (surnames : List (String × String)) (handler : String → List String → String)
    (text : String)
    (hcmd : startsWithList ['/'] text.data = false)
    (hkw : (categorize_query morph surnames text).2 = []) :
    process_query morph surnames handler text = some clarifyMsg := by
  simp [process_query, hcmd, hkw]

/-- Witness for C9: the locative-marker query consisting only of a stop
word is classified `(navigation, [])` and still answered with the
clarification prompt. -/
theorem C9_witness :
    categorize_query id [] "где?" = ("navigation", []) ∧
    process_query id [] (fun c _ => c) "где?" = some clarifyMsg :=
  ⟨by decide,
   C9_empty_keywords_prompt id [] (fun c _ => c) "где?" (by decide) (by decide)⟩

-- Dictionary lemmas for the Roster Index -------------------------------------

theorem find?_replace_of_any {d : List (String × String)} {k v : String}
    (hany : d.any (fun p => p.1 == k) = true) :
    (d.map (fun p => if p.1 == k then (k, v) else p)).find? (fun p => p.1 == k) =
      some (k, v) := by
  induction d with
  | nil => simp at hany
  | cons p d' ih =>
    by_cases hp : (p.1 == k) = true
    · simp only [List.map_cons, if_pos hp]
      simp [List.find?_cons]
    · have hp2 : (p.1 == k) = false := by simpa using hp
      rw [List.map_cons, if_neg hp, List.find?_cons, hp2]
      apply ih
      rcases List.any_eq_true.mp hany with ⟨q, hq, hqk⟩
      rcases List.mem_cons.mp hq with rfl | hq'
      · exact absurd hqk hp
      · exact List.any_eq_true.mpr ⟨q, hq', hqk⟩

theorem find?_replace_other {d : List (String × String)} {k v k' : String}
    (hne : k' ≠ k) :
    (d.map (fun p => if p.1 == k then (k, v) else p)).find? (fun p => p.1 == k') =
      d.find? (fun p => p.1 == k') := by
  induction d with
  | nil => rfl
  | cons p d' ih =>
    by_cases hp : (p.1 == k) = true
    · have hpk : p.1 = k := by simpa using hp
      have h1 : ((k, v).1 == k') = false := by
        rw [beq_eq_false_iff_ne]
        exact Ne.symm hne
      have h2 : (p.1 == k') = false := by
        rw [beq_eq_false_iff_ne, hpk]
        exact Ne.symm hne
      simp only [List.map_cons, if_pos hp, List.find?_cons, h1, h2]
      exact ih
    · simp only [List.map_cons, if_neg hp, List.find?_cons]
      cases hp' : (p.1 == k') with
      | true => rfl
      | false => exact ih

theorem find?_append_of_none {α : Type} {p : α → Bool} {l l' : List α}
    (h : l.find? p = none) : (l ++ l').find? p = l'.find? p := by
  induction l with
  | nil => rfl
  | cons a l'' ih =>
    rw [List.find?_eq_none] at h
    rw [List.cons_append, List.find?_cons_of_neg _ (h a (List.mem_cons_self a l''))]
    exact ih (List.find?_eq_none.mpr fun x hx => h x (List.mem_cons_of_mem a hx))

theorem find?_append_of_some {α : Type} {p : α → Bool} {l l' : List α} {a : α}
    (h : l.find? p = some a) : (l ++ l').find? p = some a := by
  induction l with
  | nil => exact absurd h (by simp)
  | cons b l'' ih =>
    by_cases hb : p b = true
    · rw [List.find?_cons_of_pos _ hb] at h
      rw [List.cons_append, List.find?_cons_of_pos _ hb]
      exact h
    · rw [List.find?_cons_of_neg _ hb] at h
      rw [List.cons_append, List.find?_cons_of_neg _ hb]
      exact ih h

theorem dictLookup_insert_self (d : List (String × String)) (k v : String) :
    dictLookup (dictInsert d k v) k = some v := by
  unfold dictInsert dictLookup
  split
  · next hany => rw [find?_replace_of_any hany]; rfl
  · next hany =>
    rw [find?_append_of_none]
    · simp [List.find?_cons]
    · rw [List.find?_eq_none]
      intro q hq hqk
      exact hany (List.any_eq_true.mpr ⟨q, hq, hqk⟩)

theorem dictLookup_insert_other (d : List (String × String)) (k v k' : String)
    (hne : k' ≠ k) : dictLookup (dictInsert d k v) k' = dictLookup d k' := by
  unfold dictInsert dictLookup
  split
  · rw [find?_replace_other hne]
  · cases hf : d.find? (fun p => p.1 == k') with
    | some q => rw [find?_append_of_some hf]
    | none =>
      have h1 : ((k, v).1 == k') = false := by
        rw [beq_eq_false_iff_ne]
        exact Ne.symm hne
      rw [find?_append_of_none hf]
      simp [List.find?_cons, h1]

theorem mem_dictInsert {d : List (String × String)} {k v : String}
    {q : String × String} (h : q ∈ dictInsert d k v) : q ∈ d ∨ q = (k, v) := by
  unfold dictInsert at h
  split at h
  · rcases List.mem_map.mp h with ⟨p, hp, hq⟩
    by_cases hpk : (p.1 == k) = true
    · rw [if_pos hpk] at hq
      exact Or.inr hq.symm
    · rw [if_neg hpk] at hq
      exact Or.inl (hq ▸ hp)
  · rcases List.mem_append.mp h with h1 | h2
    · exact Or.inl h1
    · exact Or.inr (by simpa using h2)

/-- The Python-dict invariant of the build loop: after folding the roster,
the value under key `k` is the full name of the last surviving record with
that key; keys never touched fall back to the accumulator. -/
theorem lookup_foldl_roster (l : List (List String)) :
    ∀ (d : List (String × String)) (k : String),
      dictLookup (l.foldl rosterStep d) k =
        match lastValid l k with
        | some t => some (teacherFullName t)
        | none => dictLookup d k := by
  induction l using List.reverseRecOn with
  | nil =>
    intro d k
    simp [lastValid]
  | append_singleton l t ih =>
    intro d k
    rw [List.foldl_append]
    simp only [List.foldl_cons, List.foldl_nil]
    have hLV : lastValid (l ++ [t]) k =
        if decide (4 ≤ t.length) && (teacherKey t == k) then some t else lastValid l k := by
      unfold lastValid
      rw [List.filter_append]
      by_cases hpt : (decide (4 ≤ t.length) && (teacherKey t == k)) = true
      · rw [if_pos hpt]
        have : List.filter (fun u => decide (4 ≤ u.length) && (teacherKey u == k)) [t] = [t] := by
          rw [List.filter_cons, if_pos hpt, List.filter_nil]
        rw [this]
        exact List.getLast?_concat _
      · rw [if_neg hpt]
        have : List.filter (fun u => decide (4 ≤ u.length) && (teacherKey u == k)) [t] = [] := by
          rw [List.filter_cons, if_neg hpt, List.filter_nil]
        rw [this, List.append_nil]
    rw [hLV]
    by_cases hpt : (decide (4 ≤ t.length) && (teacherKey t == k)) = true
    · rw [if_pos hpt]
      have h4 : 4 ≤ t.length := by simpa using ((Bool.and_eq_true _ _).mp hpt).1
      have hk : teacherKey t = k := by simpa using ((Bool.and_eq_true _ _).mp hpt).2
      unfold rosterStep
      rw [if_pos h4, ← hk]
      exact dictLookup_insert_self (l.foldl rosterStep d) (teacherKey t) (teacherFullName t)
    · rw [if_neg hpt, ← ih d k]
      unfold rosterStep
      split
      · next h4 =>
        have hk : ¬ teacherKey t = k := by
          intro hkk
          exact hpt (by simp [h4, hkk])
        exact dictLookup_insert_other (l.foldl rosterStep d) (teacherKey t)
          (teacherFullName t) k (fun h => hk h.symm)
      · rfl

theorem mem_foldl_roster (l : List (List String)) :
    ∀ (d : List (String × String)) (q : String × String),
      q ∈ l.foldl rosterStep d →
      q ∈ d ∨ ∃ t ∈ l, 4 ≤ t.length ∧ q = (teacherKey t, teacherFullName t) := by
  induction l with
  | nil => exact fun d q h => Or.inl h
  | cons t l' ih =>
    intro d q h
    rw [List.foldl_cons] at h
    rcases ih _ q h with hd | ⟨u, hu, h4, hq⟩
    · unfold rosterStep at hd
      split at hd
      · next h4 =>
        rcases mem_dictInsert hd with h1 | h2
        · exact Or.inl h1
        · exact Or.inr ⟨t, List.mem_cons_self t l', h4, h2⟩
      · exact Or.inl hd
    · exact Or.inr ⟨u, List.mem_cons_of_mem t hu, h4, hq⟩

/-- **C10** — after building the Roster Index, the value stored under any
key is the full name of the *last* record in the input sequence that
survives the length guard and has that lowercased surname: a later record
with the same surname overwrites an earlier one. -/
theorem C10_last_record_wins (l : List (List String)) (k : String) :
    dictLookup (set_teacher_surnames l) k = (lastValid l k).map teacherFullName := by
  unfold set_teacher_surnames
  rw [lookup_foldl_roster l [] k]
  cases hl : lastValid l k <;> rfl

/-- **C4, counterexample** — the claim says a record with at least 3
positional fields (surname, given name, patronymic) is indexed; the code
skips every record shorter than 4 fields (DB rows carry the id at index
0), so a 3-field record produces an empty index. -/
theorem C4_counterexample :
    set_teacher_surnames [["Иванов", "Иван", "Иванович"]] = [] := by decide

/-- **C4, amended** — the Roster Index build indexes every record with at
least 4 positional fields (id, surname, given name, patronymic) under the
lowercased surname at position 1, and every index entry originates from
such a record — records with fewer fields are skipped; the build is a
total function of the record list, so no input can make it raise. -/
theorem C4_amended_roster_build (l : List (List String)) :
    (∀ t ∈ l, 4 ≤ t.length →
      (dictLookup (set_teacher_surnames l) (teacherKey t)).isSome = true) ∧
    (∀ k v, (k, v) ∈ set_teacher_surnames l →
      ∃ t ∈ l, 4 ≤ t.length ∧ k = teacherKey t ∧ v = teacherFullName t) := by
  constructor
  · intro t ht h4
    unfold set_teacher_surnames
    rw [lookup_foldl_roster l [] (teacherKey t)]
    have hmem : t ∈ l.filter fun u => decide (4 ≤ u.length) && (teacherKey u == teacherKey t) := by
      rw [List.mem_filter]
      exact ⟨ht, by simp [h4]⟩
    have hne := List.ne_nil_of_mem hmem
    cases hlast : lastValid l (teacherKey t) with
    | some u => rfl
    | none =>
      unfold lastValid at hlast
      exact absurd (List.getLast?_eq_none_iff.mp hlast) hne
  · intro k v hmem
    rcases mem_foldl_roster l [] (k, v) hmem with h | ⟨t, ht, h4, hq⟩
    · simp at h
    · rw [Prod.mk.injEq] at hq
      exact ⟨t, ht, h4, hq.1, hq.2⟩

/-- Witness for the amended C4: a 4-field record is indexed, a 1-field
record is skipped, and the single index entry traces back to the valid
record. -/
theorem C4_amended_witness :
    (dictLookup (set_teacher_surnames [["1", "Петров", "Пётр", "Петрович"], ["х"]])
        (teacherKey ["1", "Петров", "Пётр", "Петрович"])).isSome = true ∧
    ∃ t ∈ [["1", "Петров", "Пётр", "Петрович"], ["х"]], 4 ≤ t.length ∧
      "петров" = teacherKey t ∧ "Петров Пётр Петрович" = teacherFullName t :=
  ⟨(C4_amended_roster_build [["1", "Петров", "Пётр", "Петрович"], ["х"]]).1
      ["1", "Петров", "Пётр", "Петрович"] (by decide) (by decide),
   (C4_amended_roster_build [["1", "Петров", "Пётр", "Петрович"], ["х"]]).2
      "петров" "Петров Пётр Петрович" (by decide)⟩

-- Substring length bound and the fuzzy step ----------------------------------

theorem startsWith_length {pat l : List Char} (h : startsWithList pat l = true) :
    pat.length ≤ l.length := by
  induction pat generalizing l with
  | nil => simp
  | cons a as ih =>
    cases l with
    | nil => exact absurd h (by simp [startsWithList])
    | cons b bs =>
      unfold startsWithList at h
      rcases (Bool.and_eq_true _ _).mp h with ⟨_, h2⟩
      simpa using ih h2

theorem charListHas_length {pat l : List Char} (h : charListHas pat l = true) :
    pat.length ≤ l.length := by
  induction l with
  | nil => exact startsWith_length h
  | cons c cs ih =>
    unfold charListHas at h
    rcases (Bool.or_eq_true _ _).mp h with h1 | h2
    · exact startsWith_length h1
    · exact Nat.le_trans (ih h2) (by simp)

theorem strHas_length {hay pat : String} (h : strHas hay pat = true) :
    pat.length ≤ hay.length := by
  unfold strHas at h
  exact charListHas_length h

/-- The fuzzy step returns the first category of the table whose keyword
set has a containment overlap with a token. -/
theorem step_fuzzy_first {kws : List String} {r : String × List String}
    (h : step_fuzzy kws = some r) :
    ∃ l₁ p l₂, categories = l₁ ++ p :: l₂ ∧ r = (p.1, kws) ∧
      fuzzyCondition kws p = true ∧ ∀ q ∈ l₁, fuzzyCondition kws q = false := by
  unfold step_fuzzy at h
  rw [List.findSome?_eq_some_iff] at h
  rcases h with ⟨l₁, p, l₂, hcat, hfp, hl₁⟩
  have hcond : fuzzyCondition kws p = true := by
    cases hc : fuzzyCondition kws p with
    | true => rfl
    | false =>
      unfold fuzzyCondition at hc
      rw [if_neg (by rw [hc]; simp)] at hfp
      exact absurd hfp (by simp)
  refine ⟨l₁, p, l₂, hcat, ?_, hcond, ?_⟩
  · unfold fuzzyCondition at hcond
    rw [if_pos hcond] at hfp
    exact ((Option.some.injEq _ _).mp hfp).symm
  · intro q hq
    have hnone := hl₁ q hq
    cases hc : fuzzyCondition kws q with
    | false => rfl
    | true =>
      unfold fuzzyCondition at hc
      rw [if_pos hc] at hnone
      exact absurd hnone (by simp)

/-- Reduction of `categorize_query` to the ninth step when every earlier
step declines. -/
theorem categorize_fuzzy_step {morph : String → String}
    {surnames : List (String × String)} {text : String} {r : String × List String}
    (h1 : rosterFind surnames (fullKeywords morph text) = none)
    (h2 : step_nav (pyLower text) (fullKeywords morph text) = none)
    (h3 : step_mention (pyLower text) (fullKeywords morph text) = none)
    (h4 : step_cap (fullKeywords morph text) = none)
    (h5 : find_discipline_in_text morph (pyLower text) = none)
    (h6 : (strHas (pyLower text) "преподаватели" || strHas (pyLower text) "о преподавателях" ||
           strHas (pyLower text) "список преподавателей") = false)
    (h7 : (strHas (pyLower text) "столовая" || strHas (pyLower text) "буфет" ||
           strHas (pyLower text) "поесть") = false)
    (h8 : step_exact (fullKeywords morph text) = none)
    (h9 : step_fuzzy (fullKeywords morph text) = some r) :
    categorize_query morph surnames text = r := by
  have h6' : ¬ ((strHas (pyLower text) "преподаватели" ||
      strHas (pyLower text) "о преподавателях" ||
      strHas (pyLower text) "список преподавателей") = true) := by
    rw [h6]
    simp
  have h7' : ¬ ((strHas (pyLower text) "столовая" || strHas (pyLower text) "буфет" ||
      strHas (pyLower text) "поесть") = true) := by
    rw [h7]
    simp
  simp only [categorize_query, h1, h2, h3, h4, h5, h8, h9, if_neg h6', if_neg h7']

/-- **C8** — positive half: a query reaching step 9 with a token and a
category keyword where one contains the other with the contained string of
length at least 4 (the two not equal) is mapped by the fuzzy step to a
category with such an overlap.  Negative half: when every
token/keyword containment has the contained string shorter than 4
characters (in particular a mere 2-character overlap), the fuzzy step
returns nothing. -/
theorem C8_fuzzy_threshold :
    (∀ (morph : String → String) (surnames : List (String × String)) (text : String)
      (k cw : String) (p : String × List String),
      rosterFind surnames (fullKeywords morph text) = none →
      step_nav (pyLower text) (fullKeywords morph text) = none →
      step_mention (pyLower text) (fullKeywords morph text) = none →
      step_cap (fullKeywords morph text) = none →
      find_discipline_in_text morph (pyLower text) = none →
      (strHas (pyLower text) "преподаватели" || strHas (pyLower text) "о преподавателях" ||
        strHas (pyLower text) "список преподавателей") = false →
      (strHas (pyLower text) "столовая" || strHas (pyLower text) "буфет" ||
        strHas (pyLower text) "поесть") = false →
      step_exact (fullKeywords morph text) = none →
      k ∈ fullKeywords morph text → p ∈ categories → cw ∈ p.2 → k ≠ cw →
      ((3 < k.length ∧ strHas cw k = true) ∨ (3 < cw.length ∧ strHas k cw = true)) →
      ∃ c, categorize_query morph surnames text = (c, fullKeywords morph text) ∧
        ∃ l₁ q l₂, categories = l₁ ++ q :: l₂ ∧ c = q.1 ∧
          fuzzyCondition (fullKeywords morph text) q = true ∧
          ∀ q' ∈ l₁, fuzzyCondition (fullKeywords morph text) q' = false) ∧
    (∀ kws : List String,
      (∀ k ∈ kws, ∀ p ∈ categories, ∀ cw ∈ p.2,
        (strHas cw k = true → k.length ≤ 3) ∧ (strHas k cw = true → cw.length ≤ 3)) →
      step_fuzzy kws = none) := by
  constructor
  · intro morph surnames text k cw p h1 h2 h3 h4 h5 h6 h7 h8 hk hp hcw _ hover
    have hpair : fuzzyPair k cw = true := by
      unfold fuzzyPair
      rcases hover with ⟨hlen, hsub⟩ | ⟨hlen, hsub⟩
      · rw [hsub, decide_eq_true hlen]
        simp
      · rw [hsub, decide_eq_true hlen]
        simp
    have hcond : fuzzyCondition (fullKeywords morph text) p = true := by
      unfold fuzzyCondition
      exact List.any_eq_true.mpr ⟨k, hk, List.any_eq_true.mpr ⟨cw, hcw, hpair⟩⟩
    have hsome : (step_fuzzy (fullKeywords morph text)).isSome := by
      apply findSome?_isSome_of_exists
      refine ⟨p, hp, ?_⟩
      unfold fuzzyCondition at hcond
      rw [hcond]
      rfl
    rcases Option.isSome_iff_exists.mp hsome with ⟨r, hr⟩
    rcases step_fuzzy_first hr with ⟨l₁, q, l₂, hcat, rfl, hqcond, hbefore⟩
    exact ⟨q.1, categorize_fuzzy_step h1 h2 h3 h4 h5 h6 h7 h8 hr,
      l₁, q, l₂, hcat, rfl, hqcond, hbefore⟩
  · intro kws h
    unfold step_fuzzy
    rw [List.findSome?_eq_none_iff]
    intro p hp
    have hfalse : (kws.any fun k => p.2.any fun cw => fuzzyPair k cw) = false := by
      rw [List.any_eq_false]
      intro k hk
      rw [Bool.not_eq_true, List.any_eq_false]
      intro cw hcw
      rw [Bool.not_eq_true]
      rcases h k hk p hp cw hcw with ⟨hc1, hc2⟩
      unfold fuzzyPair
      have e1 : (decide (3 < k.length) && strHas cw k) = false := by
        cases hs1 : strHas cw k with
        | true =>
          have hk3 : ¬ (3 < k.length) := by
            have := hc1 hs1
            omega
          simp [hk3]
        | false => simp
      have e2 : (decide (3 < cw.length) && strHas k cw) = false := by
        cases hs2 : strHas k cw with
        | true =>
          have hcw3 : ¬ (3 < cw.length) := by
            have := hc2 hs2
            omega
          simp [hcw3]
        | false => simp
      rw [e1, e2]
      rfl
    rw [hfalse]
    rfl

/-- Witness for C8: the truncated token тренировк (9 letters shared with
the sport keyword тренировка) reaches step 9 and is mapped to a fuzzy
category, while a 2-letter token maps to nothing. -/
theorem C8_witness :
    (∃ c, categorize_query id [] "тренировк" = (c, fullKeywords id "тренировк") ∧
      ∃ l₁ q l₂, categories = l₁ ++ q :: l₂ ∧ c = q.1 ∧
        fuzzyCondition (fullKeywords id "тренировк") q = true ∧
        ∀ q' ∈ l₁, fuzzyCondition (fullKeywords id "тренировк") q' = false) ∧
    step_fuzzy ["ок"] = none :=
  ⟨C8_fuzzy_threshold.1 id [] "тренировк" "тренировк" "тренировка" ("sport", sport_kws)
      (by decide) (by decide) (by decide) (by decide) (by decide) (by decide) (by decide)
      (by decide) (by decide) (by decide) (by decide) (by decide)
      (Or.inl ⟨by decide, by decide⟩),
   C8_fuzzy_threshold.2 ["ок"] (by decide)⟩

-- Split/join machinery for the Normalizer ------------------------------------

theorem pySplitAux_nonspace :
    ∀ (w : List Char), (∀ c ∈ w, isSpaceChar c = false) →
      ∀ cur l, pySplitAux cur (w ++ l) = pySplitAux (w.reverse ++ cur) l := by
  intro w
  induction w with
  | nil => intro _ cur l; simp
  | cons a as ih =>
    intro hw cur l
    have ha : ¬ (isSpaceChar a = true) := by
      rw [hw a (List.mem_cons_self a as)]
      simp
    rw [List.cons_append, pySplitAux_cons, if_neg ha,
      ih (fun c hc => hw c (List.mem_cons_of_mem a hc)) (a :: cur) l]
    congr 1
    simp [List.reverse_cons, List.append_assoc]

theorem pySplit_word {w : List Char} (hne : w ≠ [])
    (hw : ∀ c ∈ w, isSpaceChar c = false) : pySplit w = [w] := by
  unfold pySplit
  have h := pySplitAux_nonspace w hw [] []
  rw [List.append_nil] at h
  rw [h, List.append_nil, pySplitAux_nil,
    if_neg (fun hr => hne (List.reverse_eq_nil_iff.mp hr)), List.reverse_reverse]

theorem pySplit_word_cons {w rest : List Char} (hne : w ≠ [])
    (hw : ∀ c ∈ w, isSpaceChar c = false) :
    pySplit (w ++ ' ' :: rest) = w :: pySplit rest := by
  unfold pySplit
  rw [pySplitAux_nonspace w hw [] (' ' :: rest), List.append_nil, pySplitAux_cons,
    if_pos (by decide : isSpaceChar ' ' = true),
    if_neg (fun hr => hne (List.reverse_eq_nil_iff.mp hr)), List.reverse_reverse]

theorem pySplit_join :
    ∀ (ts : List (List Char)),
      (∀ t ∈ ts, t ≠ [] ∧ ∀ c ∈ t, isSpaceChar c = false) →
      pySplit (joinWords ts) = ts := by
  intro ts
  induction ts with
  | nil => intro _; rfl
  | cons t ts ih =>
    intro h
    rcases h t (List.mem_cons_self t ts) with ⟨hne, hw⟩
    cases ts with
    | nil => exact pySplit_word hne hw
    | cons x ws =>
      rw [show joinWords (t :: x :: ws) = t ++ ' ' :: joinWords (x :: ws) from rfl,
        pySplit_word_cons hne hw,
        ih (fun u hu => h u (List.mem_cons_of_mem t hu))]

theorem mem_joinWords {c : Char} :
    ∀ {ts : List (List Char)}, c ∈ joinWords ts → (∃ t ∈ ts, c ∈ t) ∨ c = ' ' := by
  intro ts
  induction ts with
  | nil => intro h; simp [joinWords] at h
  | cons t ts ih =>
    intro h
    cases ts with
    | nil => exact Or.inl ⟨t, List.mem_cons_self t [], h⟩
    | cons x ws =>
      rw [show joinWords (t :: x :: ws) = t ++ ' ' :: joinWords (x :: ws) from rfl] at h
      rcases List.mem_append.mp h with h1 | h2
      · exact Or.inl ⟨t, List.mem_cons_self t (x :: ws), h1⟩
      · rcases List.mem_cons.mp h2 with rfl | h3
        · exact Or.inr rfl
        · rcases ih h3 with ⟨u, hu, hcu⟩ | rfl
          · exact Or.inl ⟨u, List.mem_cons_of_mem t hu, hcu⟩
          · exact Or.inr rfl

theorem wordChar_not_space (c : Char) (h : isWordChar c = true) : isSpaceChar c = false := by
  cases hs : isSpaceChar c with
  | false => rfl
  | true =>
    exfalso
    unfold isSpaceChar at hs
    simp only [Bool.or_eq_true, decide_eq_true_eq] at hs
    rcases hs with ((((rfl | rfl) | rfl) | rfl) | rfl) | rfl <;> exact absurd h (by decide)

theorem extract_mem_morph {morph : String → String} {text : String} {t : String}
    (h : t ∈ extract_keywords morph text) :
    (∃ w, t = morph w) ∧ stop_words.contains t = false := by
  simp only [extract_keywords] at h
  rw [List.mem_filter] at h
  rcases h with ⟨hmem, hstop⟩
  rcases List.mem_map.mp hmem with ⟨w, _, rfl⟩
  exact ⟨⟨w, rfl⟩, by simpa using hstop⟩

/-- **C7, counterexample** — normalization is not idempotent in general: the
morphological reducer is re-applied to its own output when the normalized
tokens are fed back, and nothing constrains the injected reducer to be
idempotent, so a reducer with a non-fixed normal form changes the token
sequence on the second pass. -/
theorem C7_counterexample :
    extract_keywords (fun w => if w = "кот" then "кота" else if w = "кота" then "коту" else w)
        (joinSp (extract_keywords
          (fun w => if w = "кот" then "кота" else if w = "кота" then "коту" else w) "кот")) ≠
      extract_keywords
        (fun w => if w = "кот" then "кота" else if w = "кота" then "коту" else w) "кот" := by
  decide

/-- **C7, amended** — normalization is idempotent for every reducer that is
itself idempotent and produces non-empty, lowercase, word-character-only
lemmas: feeding the space-joined output of `extract_keywords` back through
`extract_keywords` returns the same token sequence. -/
theorem C7_amended_idempotent (morph : String → String)
    (hIdem : ∀ w, morph (morph w) = morph w)
    (hTok : ∀ w, (morph w).data ≠ [] ∧
      ∀ c ∈ (morph w).data, isWordChar c = true ∧ pyLowerChar c = c)
    (text : String) :
    extract_keywords morph (joinSp (extract_keywords morph text)) =
      extract_keywords morph text := by
  set T := extract_keywords morph text with hT
  have hmem : ∀ t ∈ T, (∃ w, t = morph w) ∧ stop_words.contains t = false := by
    intro t ht
    rw [hT] at ht
    exact extract_mem_morph ht
  have hgood : ∀ t ∈ T, t.data ≠ [] ∧
      ∀ c ∈ t.data, isWordChar c = true ∧ pyLowerChar c = c := by
    intro t ht
    rcases (hmem t ht).1 with ⟨w, rfl⟩
    exact hTok w
  have hfix : ∀ c ∈ joinWords (T.map String.data), pyLowerChar c = c ∧ cleanChar c = c := by
    intro c hc
    rcases mem_joinWords hc with ⟨td, htd, hctd⟩ | rfl
    · rcases List.mem_map.mp htd with ⟨t, ht, rfl⟩
      rcases (hgood t ht).2 c hctd with ⟨hw, hl⟩
      refine ⟨hl, ?_⟩
      unfold cleanChar
      rw [hw]
      simp
    · exact ⟨by decide, by decide⟩
  have h1 : (pyLower (joinSp T)).data.map cleanChar = joinWords (T.map String.data) := by
    have h0 : (pyLower (joinSp T)).data = joinWords (T.map String.data) := by
      show (joinWords (T.map String.data)).map pyLowerChar = joinWords (T.map String.data)
      exact mapSelf_of_mem (fun c hc => (hfix c hc).1)
    rw [h0]
    exact mapSelf_of_mem (fun c hc => (hfix c hc).2)
  have hside : ∀ td ∈ T.map String.data, td ≠ [] ∧ ∀ c ∈ td, isSpaceChar c = false := by
    intro td htd
    rcases List.mem_map.mp htd with ⟨t, ht, rfl⟩
    rcases hgood t ht with ⟨hne, hall⟩
    exact ⟨hne, fun c hc => wordChar_not_space c (hall c hc).1⟩
  have hmk : (T.map String.data).map String.mk = T := by
    rw [List.map_map]
    exact mapSelf_of_mem (fun t _ => mk_data t)
  have hmorph : T.map morph = T := by
    apply mapSelf_of_mem
    intro t ht
    rcases (hmem t ht).1 with ⟨w, rfl⟩
    exact hIdem w
  simp only [extract_keywords, h1, pySplit_join (T.map String.data) hside, hmk, hmorph]
  exact List.filter_eq_self.mpr (fun t ht => by rw [(hmem t ht).2]; rfl)

/-- Witness for the amended C7: a constant well-formed reducer satisfies
the hypotheses, and re-normalization is stable on a two-word query. -/
theorem C7_amended_witness :
    extract_keywords (fun _ => "слово")
        (joinSp (extract_keywords (fun _ => "слово") "привет мир")) =
      extract_keywords (fun _ => "слово") "привет мир" :=
  C7_amended_idempotent (fun _ => "слово") (fun _ => rfl)
    (fun _ => ⟨(by decide : ("слово" : String).data ≠ []),
      (by decide : ∀ c ∈ ("слово" : String).data, isWordChar c = true ∧ pyLowerChar c = c)⟩)
    "привет мир"
